import Mathlib

/-!
Task manager: the rule-based classification engine.

Shallow embedding of `classifyTask` and `extractEntities` from
`backend/server.js`, with the keyword tables they read.

A JavaScript string is a Lean `String` (its list of code points). Every
keyword, verb and pattern below is ASCII, and `includes` and the regular
expressions compare code units, so working on code points finds the same
occurrences as working on UTF-16 code units.
-/

namespace TaskManager

/-! ## Strings -/

/-- Lower case of one code point, as `String.prototype.toLowerCase` gives it.
ASCII capitals are folded. The two code points outside ASCII whose lower case
contains an ASCII letter are U+212A (Kelvin sign, to `k`) and U+0130 (capital
dotted I, to `i` followed by U+0307). Every other code point outside ASCII
lower-cases to code points outside ASCII that no table or pattern below
inspects (white space is its own lower case), and is kept as it is. -/
def lowerCodePoint (c : Char) : List Char :=
  if c = Char.ofNat 0x212A then ['k']
  else if c = Char.ofNat 0x0130 then ['i', Char.ofNat 0x0307]
  else [c.toLower]

/-- Model of `s.toLowerCase()`. -/
def toLowerCase (s : String) : String :=
  ⟨s.data.flatMap lowerCodePoint⟩

/-- Search for `k` at every position of the list, left to right. -/
def includesFrom (k : List Char) : List Char → Bool
  | [] => k.isEmpty
  | c :: cs => k.isPrefixOf (c :: cs) || includesFrom k cs

/-- Model of `text.includes(keyword)`. -/
def includes (text keyword : String) : Bool :=
  includesFrom keyword.data text.data

/-! ## Tables (`server.js` lines 23-41) -/

/-- The `KEYWORDS` object, as its entries in declaration order. -/
def KEYWORDS : List (String × List String) :=
  [ ("scheduling", ["meeting", "schedule", "call", "appointment", "deadline"]),
    ("finance", ["payment", "invoice", "bill", "budget", "cost", "expense"]),
    ("technical", ["bug", "fix", "error", "install", "repair", "maintain"]),
    ("safety", ["safety", "hazard", "inspection", "compliance", "ppe"]) ]

/-- The `PRIORITY_KEYWORDS` object, as its entries in declaration order. -/
def PRIORITY_KEYWORDS : List (String × List String) :=
  [ ("high", ["urgent", "asap", "immediately", "today", "critical", "emergency"]),
    ("medium", ["soon", "this week", "important"]) ]

/-- The `SUGGESTED_ACTIONS` object, as its entries in declaration order. -/
def SUGGESTED_ACTIONS : List (String × List String) :=
  [ ("scheduling", ["Block calendar", "Send invite", "Prepare agenda", "Set reminder"]),
    ("finance", ["Check budget", "Get approval", "Generate invoice", "Update records"]),
    ("technical", ["Diagnose issue", "Check resources", "Assign technician", "Document fix"]),
    ("safety", ["Conduct inspection", "File report", "Notify supervisor", "Update checklist"]),
    ("general", ["Review task", "Assign owner", "Set deadline", "Update status"]) ]

/-- Property read `table[key]`: `none` stands for `undefined`. -/
def getProperty (table : List (String × List String)) (key : String) : Option (List String) :=
  (table.find? fun entry => entry.1 == key).map Prod.snd

/-- The loop `for (const [label, keywords] of Object.entries(table))` with
`if (keywords.some(keyword => text.includes(keyword))) { result = label; break; }`
started from `result = dflt`. -/
def scanTable (text : String) (dflt : String) : List (String × List String) → String
  | [] => dflt
  | (label, keywords) :: rest =>
    if keywords.any (fun keyword => includes text keyword) then label
    else scanTable text dflt rest

/-- The second argument of `classifyTask`: a string, or absent. -/
inductive Description where
  | undefined
  | null
  | str (s : String)
  deriving DecidableEq, Repr

/-- The expression `description || ''`: `undefined`, `null` and the empty
string are falsy. -/
def Description.orEmpty : Description → String
  | .undefined => ""
  | .null => ""
  | .str s => if s = "" then "" else s

/-! ## Regular expressions

The constructs the four patterns of `extractEntities` use, matched with the
backtracking order of the language: a matcher returns every way to match at
the start of the input, most preferred first, and `exec` takes the first. -/

/-- The character classes of the patterns: `\d`, `[a-z]` and `\s`. -/
inductive CharClass where
  | digit
  | lowerAZ
  | space
  deriving DecidableEq, Repr

/-- Pattern syntax. `rep min max a` is the greedy quantifier `a{min,max}`,
with `max = none` for no upper bound (`+` is `rep 1 none`, `?` is
`rep 0 (some 1)`); `group` is a capturing group, the others do not capture. -/
inductive Regex where
  | eps
  | chr (c : Char)
  | cls (k : CharClass)
  | seq (a b : Regex)
  | alt (a b : Regex)
  | rep (min : Nat) (max : Option Nat) (a : Regex)
  | group (a : Regex)
  deriving Repr

/-- A regular expression literal with its `i` flag (all four have `g`). -/
structure RegExp where
  source : Regex
  ignoreCase : Bool

/-- One way to match at the start of an input: the text matched, what the
capturing group holds, and the input left. -/
structure MatchState where
  matched : List Char
  capture : Option (List Char)
  rest : List Char
  deriving DecidableEq, Repr

/-- The members of `\s`: WhiteSpace and LineTerminator code points. -/
def isWhiteSpace (c : Char) : Bool :=
  c.toNat ∈ [0x09, 0x0A, 0x0B, 0x0C, 0x0D, 0x20, 0xA0, 0x1680, 0x2028, 0x2029,
    0x202F, 0x205F, 0x3000, 0xFEFF] || (0x2000 ≤ c.toNat && c.toNat ≤ 0x200A)

/-- Canonicalize, without the `u` flag: under `i` a character is compared by
its upper case, and a character outside ASCII never canonicalizes to an ASCII
one, so against the ASCII patterns here only ASCII case folding is seen. -/
def canonicalize (ignoreCase : Bool) (c : Char) : Char :=
  if ignoreCase then c.toUpper else c

/-- Membership of a character in a class. Under `i`, `[a-z]` holds the
characters whose canonical form is the canonical form of a member, which is
`A` to `Z`; digits and white space have no case. -/
def CharClass.test (ignoreCase : Bool) : CharClass → Char → Bool
  | .digit, c => c.isDigit
  | .space, c => isWhiteSpace c
  | .lowerAZ, c => if ignoreCase then (canonicalize true c).isUpper else c.isLower

/-- Sequencing of two match states: texts are joined, a later capture
replaces an earlier one. -/
def MatchState.andThen (x y : MatchState) : MatchState :=
  ⟨x.matched ++ y.matched, y.capture <|> x.capture, y.rest⟩

/-- RepeatMatcher for a greedy quantifier with body `body`: at most `max`
more iterations, at least `min`; once `min` is reached an iteration that
matches the empty text is rejected. -/
def repeatMatch (body : List Char → List MatchState) : Nat → Nat → List Char → List MatchState
  | _, 0, s => [⟨[], none, s⟩]
  | min, max + 1, s =>
    let more := (body s).flatMap fun y =>
      if min = 0 ∧ y.matched = [] then []
      else (repeatMatch body (min - 1) max y.rest).map fun z => y.andThen z
    if min = 0 then more ++ [⟨[], none, s⟩] else more

/-- All matches of a pattern at the start of `s`, most preferred first. An
unbounded quantifier is run with the bound `min + s.length`: past `min` each
iteration consumes a character, so no more iterations can happen. -/
def matchRe (ic : Bool) : Regex → List Char → List MatchState
  | .eps, s => [⟨[], none, s⟩]
  | .chr c, s =>
    match s with
    | d :: ds => if canonicalize ic d = canonicalize ic c then [⟨[d], none, ds⟩] else []
    | [] => []
  | .cls k, s =>
    match s with
    | d :: ds => if k.test ic d then [⟨[d], none, ds⟩] else []
    | [] => []
  | .seq a b, s => (matchRe ic a s).flatMap fun x => (matchRe ic b x.rest).map fun y => x.andThen y
  | .alt a b, s => matchRe ic a s ++ matchRe ic b s
  | .rep min max a, s => repeatMatch (fun t => matchRe ic a t) min (max.getD (min + s.length)) s
  | .group a, s => (matchRe ic a s).map fun x => ⟨x.matched, some x.matched, x.rest⟩

/-- The match the engine reports at the start of `s`, if any. -/
def matchAt (re : RegExp) (s : List Char) : Option MatchState :=
  (matchRe re.ignoreCase re.source s).head?

/-- Repeated `exec` of a global pattern: the matches found from left to
right, each search starting where the last match ended. The first argument
counts the characters of the last match still to be passed over; the pattern
is also tried at the end of the input. After an empty match the search moves
on by one, as `String.prototype.match` does. -/
def execAll (re : RegExp) : Nat → List Char → List MatchState
  | 0, [] => (matchAt re []).toList
  | _ + 1, [] => []
  | skip + 1, _ :: cs => execAll re skip cs
  | 0, c :: cs =>
    match matchAt re (c :: cs) with
    | some m => m :: execAll re (m.matched.length - 1) cs
    | none => execAll re 0 cs

/-- Model of `text.match(pattern)` for a global pattern: `none` is `null`. -/
def stringMatch (text : String) (pattern : RegExp) : Option (List String) :=
  match execAll pattern 0 text.data with
  | [] => none
  | m :: ms => some ((m :: ms).map fun x => String.mk x.matched)

/-- A literal word as a pattern. -/
def Regex.word : List Char → Regex
  | [] => .eps
  | [c] => .chr c
  | c :: cs => .seq (.chr c) (Regex.word cs)

/-- An alternation `w1|w2|...` of literal words. -/
def Regex.words : List String → Regex
  | [] => .eps
  | [w] => Regex.word w.data
  | w :: ws => .alt (Regex.word w.data) (Regex.words ws)

/-! ## `extractEntities` (`server.js` lines 79-112) -/

/-- The value `extractEntities` returns. -/
structure ExtractedEntities where
  dates : List String
  people : List String
  locations : List String
  actions : List String
  deriving DecidableEq, Repr

/-- The pattern
`/today|tomorrow|monday|tuesday|wednesday|thursday|friday|saturday|sunday/gi`. -/
def dayPattern : RegExp :=
  ⟨Regex.words ["today", "tomorrow", "monday", "tuesday", "wednesday", "thursday",
    "friday", "saturday", "sunday"], true⟩

/-- The pattern `\d{1,2}` sep `\d{1,2}` sep `\d{2,4}`. -/
def numericDate (sep : Char) : Regex :=
  .seq (.rep 1 (some 2) (.cls .digit)) (.seq (.chr sep)
    (.seq (.rep 1 (some 2) (.cls .digit)) (.seq (.chr sep) (.rep 2 (some 4) (.cls .digit)))))

/-- The pattern `/\d{1,2}\/\d{1,2}\/\d{2,4}/g`. -/
def slashPattern : RegExp := ⟨numericDate '/', false⟩

/-- The pattern `/\d{1,2}-\d{1,2}-\d{2,4}/g`. -/
def dashPattern : RegExp := ⟨numericDate '-', false⟩

/-- The array `datePatterns`. -/
def datePatterns : List RegExp := [dayPattern, slashPattern, dashPattern]

/-- The name part `[a-z]+(?:\s+[a-z]+)?` of `peoplePattern`. -/
def namePart : Regex :=
  .seq (.rep 1 none (.cls .lowerAZ))
    (.rep 0 (some 1) (.seq (.rep 1 none (.cls .space)) (.rep 1 none (.cls .lowerAZ))))

/-- The pattern `/(?:with|by|assign to)\s+([a-z]+(?:\s+[a-z]+)?)/gi`. -/
def peoplePattern : RegExp :=
  ⟨.seq (Regex.words ["with", "by", "assign to"])
    (.seq (.rep 1 none (.cls .space)) (.group namePart)), true⟩

/-- The array `actionVerbs`. -/
def actionVerbs : List String :=
  ["schedule", "call", "meet", "send", "review", "fix", "install", "pay", "check"]

/-- The function `extractEntities(text)`. `forEach` with `push` is a left
fold; the `while` loop over `peoplePattern.exec(text)` pushes `match[1]` of
every match (the group takes part in every match, see `people_capture`). -/
def extractEntities (text : String) : ExtractedEntities :=
  let dates := datePatterns.foldl (fun acc pattern =>
    match stringMatch text pattern with
    | some found => acc ++ found
    | none => acc) []
  let people := (execAll peoplePattern 0 text.data).map fun m => String.mk (m.capture.getD [])
  let actions := actionVerbs.foldl (fun acc verb =>
    if includes text verb then acc ++ [verb] else acc) []
  { dates := dates, people := people, locations := [], actions := actions }

/-! ## `classifyTask` (`server.js` lines 44-77) -/

/-- The value `classifyTask` returns. -/
structure Classification where
  category : String
  priority : String
  extracted_entities : ExtractedEntities
  suggested_actions : List String
  deriving DecidableEq, Repr

/-- The function `classifyTask(title, description)`. -/
def classifyTask (title : String) (description : Description) : Classification :=
  let text := toLowerCase (title ++ " " ++ description.orEmpty)
  let category := scanTable text "general" KEYWORDS
  let priority := scanTable text "low" PRIORITY_KEYWORDS
  let entities := extractEntities text
  let suggestedActions :=
    match getProperty SUGGESTED_ACTIONS category with
    | some actions => actions
    | none => (getProperty SUGGESTED_ACTIONS "general").getD []
  { category := category, priority := priority, extracted_entities := entities,
    suggested_actions := suggestedActions }

/-! ## Notions used to state the properties -/

/-- All matches of a global pattern in the text, from left to right, each
search starting where the last match ended. -/
def allMatches (text : String) (pattern : RegExp) : List String :=
  (execAll pattern 0 text.data).map fun x => String.mk x.matched

/-- The texts occur in `s` one after the other, from left to right, without
overlapping. -/
def OccurInOrder : List (List Char) → List Char → Prop
  | [], _ => True
  | m :: ms, s => ∃ before after, s = before ++ m ++ after ∧ OccurInOrder ms after

/-- The shape `D{1,2} sep D{1,2} sep D{2,4}` of a numeric date. -/
def IsNumericDate (sep : Char) (d : String) : Prop :=
  ∃ a b c : List Char, d.data = a ++ [sep] ++ b ++ [sep] ++ c ∧
    (∀ x ∈ a ++ b ++ c, x.isDigit = true) ∧
    1 ≤ a.length ∧ a.length ≤ 2 ∧ 1 ≤ b.length ∧ b.length ≤ 2 ∧ 2 ≤ c.length ∧ c.length ≤ 4

/-- A non-empty run of lower-case letters `a` to `z`. -/
def IsLowerWord (w : List Char) : Prop :=
  w ≠ [] ∧ ∀ c ∈ w, c.isLower = true

/-- A non-empty run of ASCII letters of either case. -/
def IsWord (w : List Char) : Prop :=
  w ≠ [] ∧ ∀ c ∈ w, c.isAlpha = true

/-- A non-empty run of white space (the members of `\s`). -/
def IsBlank (ws : List Char) : Prop :=
  ws ≠ [] ∧ ∀ c ∈ ws, isWhiteSpace c = true

/-- The shape of a name as the specification words it: one lower-case word,
or two of them separated by exactly one space character. -/
def IsSpecName (p : String) : Prop :=
  ∃ a, IsLowerWord a ∧ (p.data = a ∨ ∃ b, IsLowerWord b ∧ p.data = a ++ [' '] ++ b)

/-- The shape of a name as `peoplePattern` captures it: one word of ASCII
letters of either case, or two of them separated by white space. -/
def IsName (p : String) : Prop :=
  ∃ a, IsWord a ∧ (p.data = a ∨ ∃ ws b, IsBlank ws ∧ IsWord b ∧ p.data = a ++ ws ++ b)

/-! ## Occurrence of a keyword -/

/-- Some keyword of `kws` occurs as a substring of `text`. -/
def occurs (text : String) (kws : List String) : Prop :=
  ∃ k ∈ kws, k.data <:+: text.data

/-- Some keyword of `kws` occurs in `text` written in any letter case: the
comparison is the one of the `i` flag, by ASCII upper case. -/
def occursAnyCase (text : String) (kws : List String) : Prop :=
  ∃ k ∈ kws, k.data.map Char.toUpper <:+: text.data.map Char.toUpper

theorem includesFrom_iff (k s : List Char) : includesFrom k s = true ↔ k <:+: s := by
  induction s with
  | nil =>
    cases k <;> simp [includesFrom]
  | cons c cs ih =>
    simp only [includesFrom, Bool.or_eq_true, ih, List.isPrefixOf_iff_prefix]
    rw [List.infix_cons_iff]

theorem includes_iff (text keyword : String) :
    includes text keyword = true ↔ keyword.data <:+: text.data :=
  includesFrom_iff _ _

theorem any_includes_iff (text : String) (kws : List String) :
    (kws.any fun keyword => includes text keyword) = true ↔ occurs text kws := by
  simp [occurs, List.any_eq_true, includes_iff]

/-- The scan returns a label of the table or the default. -/
theorem scanTable_mem (text dflt : String) (table : List (String × List String)) :
    scanTable text dflt table = dflt ∨ scanTable text dflt table ∈ table.map Prod.fst := by
  induction table with
  | nil => simp [scanTable]
  | cons e rest ih =>
    obtain ⟨label, keywords⟩ := e
    simp only [scanTable]
    split
    · simp
    · rcases ih with h | h
      · exact Or.inl h
      · exact Or.inr (by simp [h])

theorem scanTable_cons_pos {text : String} {kws : List String} (dflt label : String)
    (rest : List (String × List String)) (h : occurs text kws) :
    scanTable text dflt ((label, kws) :: rest) = label := by
  rw [scanTable, if_pos ((any_includes_iff text kws).2 h)]

theorem scanTable_cons_neg {text : String} {kws : List String} (dflt label : String)
    (rest : List (String × List String)) (h : ¬ occurs text kws) :
    scanTable text dflt ((label, kws) :: rest) = scanTable text dflt rest := by
  rw [scanTable, if_neg (fun h2 => h ((any_includes_iff text kws).1 h2))]

/-! ## Claims C1 to C3: category, priority, suggested actions -/

/-- A description that is a string is read as it is. -/
theorem orEmpty_str (d : String) : (Description.str d).orEmpty = d := by
  by_cases h : d = ""
  · simp [Description.orEmpty, h]
  · simp [Description.orEmpty, h]

/-- The text scanned for a description that is a string. -/
theorem classifyTask_str (title d : String) :
    (classifyTask title (.str d)).category =
      scanTable (toLowerCase (title ++ " " ++ d)) "general" KEYWORDS ∧
    (classifyTask title (.str d)).priority =
      scanTable (toLowerCase (title ++ " " ++ d)) "low" PRIORITY_KEYWORDS := by
  simp only [classifyTask, orEmpty_str, and_self]

/-- What the scan of `KEYWORDS` selects on a text. -/
theorem scanTable_category (text : String) :
    let category := scanTable text "general" KEYWORDS
    let scheduling := occurs text ["meeting", "schedule", "call", "appointment", "deadline"]
    let finance := occurs text ["payment", "invoice", "bill", "budget", "cost", "expense"]
    let technical := occurs text ["bug", "fix", "error", "install", "repair", "maintain"]
    let safety := occurs text ["safety", "hazard", "inspection", "compliance", "ppe"]
    (scheduling → category = "scheduling") ∧
    (¬ scheduling → finance → category = "finance") ∧
    (¬ scheduling → ¬ finance → technical → category = "technical") ∧
    (¬ scheduling → ¬ finance → ¬ technical → safety → category = "safety") ∧
    (¬ scheduling → ¬ finance → ¬ technical → ¬ safety → category = "general") := by
  intro category scheduling finance technical safety
  have key : category = scanTable text "general" KEYWORDS := rfl
  rw [key, KEYWORDS]
  refine ⟨fun h1 => ?_, fun h1 h2 => ?_, fun h1 h2 h3 => ?_, fun h1 h2 h3 h4 => ?_,
    fun h1 h2 h3 h4 => ?_⟩
  · rw [scanTable_cons_pos _ _ _ h1]
  · rw [scanTable_cons_neg _ _ _ h1, scanTable_cons_pos _ _ _ h2]
  · rw [scanTable_cons_neg _ _ _ h1, scanTable_cons_neg _ _ _ h2, scanTable_cons_pos _ _ _ h3]
  · rw [scanTable_cons_neg _ _ _ h1, scanTable_cons_neg _ _ _ h2, scanTable_cons_neg _ _ _ h3,
      scanTable_cons_pos _ _ _ h4]
  · rw [scanTable_cons_neg _ _ _ h1, scanTable_cons_neg _ _ _ h2, scanTable_cons_neg _ _ _ h3,
      scanTable_cons_neg _ _ _ h4, scanTable]

/-- C1: for a title and a description `d` the category is the first of
scheduling, finance, technical, safety that has a keyword occurring in
`lowercase(title + " " + d)`, and general when none has; a scheduling keyword
decides whatever else the text contains. An absent description counts as the
empty string. -/
theorem classifyTask_category (title d : String) :
    let rule : String → Classification → Prop := fun text r =>
      let scheduling := occurs text ["meeting", "schedule", "call", "appointment", "deadline"]
      let finance := occurs text ["payment", "invoice", "bill", "budget", "cost", "expense"]
      let technical := occurs text ["bug", "fix", "error", "install", "repair", "maintain"]
      let safety := occurs text ["safety", "hazard", "inspection", "compliance", "ppe"]
      (scheduling → r.category = "scheduling") ∧
      (¬ scheduling → finance → r.category = "finance") ∧
      (¬ scheduling → ¬ finance → technical → r.category = "technical") ∧
      (¬ scheduling → ¬ finance → ¬ technical → safety → r.category = "safety") ∧
      (¬ scheduling → ¬ finance → ¬ technical → ¬ safety → r.category = "general")
    rule (toLowerCase (title ++ " " ++ d)) (classifyTask title (.str d)) ∧
    rule (toLowerCase (title ++ " " ++ "")) (classifyTask title .undefined) ∧
    rule (toLowerCase (title ++ " " ++ "")) (classifyTask title .null) ∧
    (classifyTask "Schedule meeting to discuss budget"
      (.str "Need to arrange a call about the invoice payment")).category = "scheduling" ∧
    (classifyTask "Weekly note" (.str "Pay the INVOICE")).category = "finance" ∧
    (classifyTask "Weekly note" (.str "repair the PPE locker")).category = "technical" ∧
    (classifyTask "Weekly note" (.str "hazard in the yard")).category = "safety" ∧
    (classifyTask "Random task"
      (.str "This is a generic task with no specific keywords")).category = "general" := by
  intro rule
  refine ⟨?_, ?_, ?_, by decide, by decide, by decide, by decide, by decide⟩
  · have h := scanTable_category (toLowerCase (title ++ " " ++ d))
    rw [← (classifyTask_str title d).1] at h
    exact h
  · exact scanTable_category (toLowerCase (title ++ " " ++ ""))
  · exact scanTable_category (toLowerCase (title ++ " " ++ ""))

/-- What the scan of `PRIORITY_KEYWORDS` selects on a text. -/
theorem scanTable_priority (text : String) :
    let priority := scanTable text "low" PRIORITY_KEYWORDS
    let high := occurs text ["urgent", "asap", "immediately", "today", "critical", "emergency"]
    let medium := occurs text ["soon", "this week", "important"]
    (high → priority = "high") ∧
    (priority = "medium" ↔ ¬ high ∧ medium) ∧
    (priority = "low" ↔ ¬ high ∧ ¬ medium) := by
  intro priority high medium
  have key : priority = scanTable text "low" PRIORITY_KEYWORDS := rfl
  rw [key, PRIORITY_KEYWORDS]
  by_cases h1 : high
  · rw [scanTable_cons_pos _ _ _ h1]
    exact ⟨fun _ => rfl, ⟨fun h => absurd h (by decide), fun h => absurd h1 h.1⟩,
      ⟨fun h => absurd h (by decide), fun h => absurd h1 h.1⟩⟩
  · rw [scanTable_cons_neg _ _ _ h1]
    by_cases h2 : medium
    · rw [scanTable_cons_pos _ _ _ h2]
      exact ⟨fun h => absurd h h1, ⟨fun _ => ⟨h1, h2⟩, fun _ => rfl⟩,
        ⟨fun h => absurd h (by decide), fun h => absurd h2 h.2⟩⟩
    · rw [scanTable_cons_neg _ _ _ h2, scanTable]
      exact ⟨fun h => absurd h h1, ⟨fun h => absurd h (by decide), fun h => absurd h.2 h2⟩,
        ⟨fun _ => ⟨h1, h2⟩, fun _ => rfl⟩⟩

/-- C2: for a title and a description `d` the priority is high whenever a
high keyword occurs in `lowercase(title + " " + d)`, medium exactly when no
high keyword and some medium keyword occurs, and low exactly when none of the
nine occurs. An absent description counts as the empty string. -/
theorem classifyTask_priority (title d : String) :
    let rule : String → Classification → Prop := fun text r =>
      let high := occurs text ["urgent", "asap", "immediately", "today", "critical",
        "emergency"]
      let medium := occurs text ["soon", "this week", "important"]
      (high → r.priority = "high") ∧
      (r.priority = "medium" ↔ ¬ high ∧ medium) ∧
      (r.priority = "low" ↔ ¬ high ∧ ¬ medium)
    rule (toLowerCase (title ++ " " ++ d)) (classifyTask title (.str d)) ∧
    rule (toLowerCase (title ++ " " ++ "")) (classifyTask title .undefined) ∧
    rule (toLowerCase (title ++ " " ++ "")) (classifyTask title .null) ∧
    (classifyTask "Important task that is also urgent"
      (.str "This needs to be done asap but is also important for this week")).priority =
        "high" ∧
    (classifyTask "Weekly note" (.str "URGENT meeting")).priority = "high" ∧
    (classifyTask "Weekly note" (.str "needed this week")).priority = "medium" ∧
    (classifyTask "Review documentation"
      (.str "Update the user manual when convenient")).priority = "low" := by
  intro rule
  refine ⟨?_, ?_, ?_, by decide, by decide, by decide, by decide⟩
  · have h := scanTable_priority (toLowerCase (title ++ " " ++ d))
    rw [← (classifyTask_str title d).2] at h
    exact h
  · exact scanTable_priority (toLowerCase (title ++ " " ++ ""))
  · exact scanTable_priority (toLowerCase (title ++ " " ++ ""))

/-- C3: the category is one of the five, the priority one of the three, and
the suggested actions are the non-empty entry of the returned category in
the table of suggested actions, written out here entry by entry; the lookup
of the returned category never falls back. -/
theorem classifyTask_well_formed (title : String) (description : Description) :
    let r := classifyTask title description
    r.category ∈ ["scheduling", "finance", "technical", "safety", "general"] ∧
    r.priority ∈ ["high", "medium", "low"] ∧
    r.suggested_actions ≠ [] ∧
    getProperty SUGGESTED_ACTIONS r.category = some r.suggested_actions ∧
    (r.category = "scheduling" → r.suggested_actions =
      ["Block calendar", "Send invite", "Prepare agenda", "Set reminder"]) ∧
    (r.category = "finance" → r.suggested_actions =
      ["Check budget", "Get approval", "Generate invoice", "Update records"]) ∧
    (r.category = "technical" → r.suggested_actions =
      ["Diagnose issue", "Check resources", "Assign technician", "Document fix"]) ∧
    (r.category = "safety" → r.suggested_actions =
      ["Conduct inspection", "File report", "Notify supervisor", "Update checklist"]) ∧
    (r.category = "general" → r.suggested_actions =
      ["Review task", "Assign owner", "Set deadline", "Update status"]) ∧
    (classifyTask "Pay the invoice" (.str "")).suggested_actions =
      ["Check budget", "Get approval", "Generate invoice", "Update records"] ∧
    (classifyTask "Weekly note" (.str "Schedule the review")).suggested_actions =
      ["Block calendar", "Send invite", "Prepare agenda", "Set reminder"] := by
  have hc := scanTable_mem (toLowerCase (title ++ " " ++ description.orEmpty)) "general" KEYWORDS
  have hp := scanTable_mem (toLowerCase (title ++ " " ++ description.orEmpty)) "low"
    PRIORITY_KEYWORDS
  simp only [classifyTask]
  generalize scanTable (toLowerCase (title ++ " " ++ description.orEmpty)) "general" KEYWORDS = c
    at hc ⊢
  generalize scanTable (toLowerCase (title ++ " " ++ description.orEmpty)) "low"
    PRIORITY_KEYWORDS = p at hp ⊢
  simp only [KEYWORDS, List.map, List.mem_cons, List.mem_nil_iff, or_false] at hc
  simp only [PRIORITY_KEYWORDS, List.map, List.mem_cons, List.mem_nil_iff, or_false] at hp
  refine ⟨?_, ?_, ?_⟩
  · simp only [List.mem_cons]
    tauto
  · simp only [List.mem_cons]
    tauto
  · rcases hc with h | h | h | h | h <;> subst h <;> decide

/-! ## Claims C4 and C5: absent or empty description -/

/-- C4: with the description absent (undefined or null) the result is the one
of the empty description, in all four fields. -/
theorem classifyTask_absent_description (title : String) :
    classifyTask title .undefined = classifyTask title (.str "") ∧
    classifyTask title .null = classifyTask title (.str "") := by
  constructor <;> simp [classifyTask, Description.orEmpty]

/-- A keyword that does not end in `c` occurs in `s ++ [c]` only inside `s`. -/
theorem infix_concat_iff {k s : List Char} {c : Char} (hne : k ≠ [])
    (hlast : k.getLast? ≠ some c) : k <:+: s ++ [c] ↔ k <:+: s := by
  constructor
  · rintro ⟨a, b, hab⟩
    rcases List.eq_nil_or_concat b with rfl | ⟨b1, x, rfl⟩
    · rcases List.eq_nil_or_concat k with rfl | ⟨k1, y, rfl⟩
      · exact absurd rfl hne
      · exfalso
        apply hlast
        have h2 : (a ++ k1) ++ [y] = s ++ [c] := by simpa using hab
        have h3 := (List.append_inj' h2 rfl).2
        simp at h3
        simp [h3]
    · have h2 : (a ++ k ++ b1) ++ [x] = s ++ [c] := by simpa using hab
      have h3 := (List.append_inj' h2 rfl).1
      exact ⟨a, b1, h3⟩
  · intro h
    exact h.trans (List.infix_append' [] s [c])

theorem toLowerCase_title_space (title : String) :
    (toLowerCase (title ++ " " ++ "")).data = (toLowerCase title).data ++ [' '] := by
  have h : lowerCodePoint ' ' = [' '] := by decide
  simp [toLowerCase, String.data_append, h]

theorem occurs_title_space (title : String) (kws : List String)
    (h : ∀ k ∈ kws, k.data ≠ [] ∧ k.data.getLast? ≠ some ' ') :
    occurs (toLowerCase (title ++ " " ++ "")) kws ↔ occurs (toLowerCase title) kws := by
  unfold occurs
  rw [toLowerCase_title_space]
  constructor
  · rintro ⟨k, hk, hin⟩
    exact ⟨k, hk, (infix_concat_iff (h k hk).1 (h k hk).2).1 hin⟩
  · rintro ⟨k, hk, hin⟩
    exact ⟨k, hk, (infix_concat_iff (h k hk).1 (h k hk).2).2 hin⟩

theorem scanTable_congr (t1 t2 dflt : String) (table : List (String × List String))
    (h : ∀ e ∈ table, (occurs t1 e.2 ↔ occurs t2 e.2)) :
    scanTable t1 dflt table = scanTable t2 dflt table := by
  induction table with
  | nil => rfl
  | cons e rest ih =>
    obtain ⟨label, kws⟩ := e
    have he := h (label, kws) (List.mem_cons_self _ _)
    have ih2 := ih fun e2 h2 => h e2 (List.mem_cons_of_mem _ h2)
    by_cases hk : occurs t1 kws
    · rw [scanTable_cons_pos _ _ _ hk, scanTable_cons_pos _ _ _ (he.1 hk)]
    · rw [scanTable_cons_neg _ _ _ hk, scanTable_cons_neg _ _ _ (fun h2 => hk (he.2 h2)), ih2]

theorem scanTable_title_space (title dflt : String) (table : List (String × List String))
    (h : ∀ e ∈ table, ∀ k ∈ e.2, k.data ≠ [] ∧ k.data.getLast? ≠ some ' ') :
    scanTable (toLowerCase (title ++ " " ++ "")) dflt table =
      scanTable (toLowerCase title) dflt table :=
  scanTable_congr _ _ _ _ fun e he => occurs_title_space title e.2 (h e he)

/-- C5: with the description empty or absent, category and priority are those
the keyword scan selects on the lower-cased title alone; the separator after
the title creates and removes no match, and `classifyTask("Pay the bill", "")`
has category finance. -/
theorem classifyTask_title_alone (title : String) :
    let onTitle : Classification → Prop := fun r =>
      r.category = scanTable (toLowerCase title) "general" KEYWORDS ∧
      r.priority = scanTable (toLowerCase title) "low" PRIORITY_KEYWORDS
    onTitle (classifyTask title (.str "")) ∧ onTitle (classifyTask title .undefined) ∧
    onTitle (classifyTask title .null) ∧
    (classifyTask "Pay the bill" (.str "")).category = "finance" := by
  have hk : ∀ e ∈ KEYWORDS, ∀ k ∈ e.2, k.data ≠ [] ∧ k.data.getLast? ≠ some ' ' := by decide
  have hp : ∀ e ∈ PRIORITY_KEYWORDS, ∀ k ∈ e.2, k.data ≠ [] ∧ k.data.getLast? ≠ some ' ' := by
    decide
  have h1 := scanTable_title_space title "general" KEYWORDS hk
  have h2 := scanTable_title_space title "low" PRIORITY_KEYWORDS hp
  have h0 : (classifyTask title (.str "")).category =
      scanTable (toLowerCase title) "general" KEYWORDS ∧
      (classifyTask title (.str "")).priority =
      scanTable (toLowerCase title) "low" PRIORITY_KEYWORDS := ⟨h1, h2⟩
  have e1 : classifyTask title .undefined = classifyTask title (.str "") := by
    simp [classifyTask, Description.orEmpty]
  have e2 : classifyTask title .null = classifyTask title (.str "") := by
    simp [classifyTask, Description.orEmpty]
  intro onTitle
  refine ⟨h0, ?_, ?_, by decide⟩
  · show onTitle (classifyTask title .undefined)
    rw [e1]; exact h0
  · show onTitle (classifyTask title .null)
    rw [e2]; exact h0

/-! ## Claim C6: action verbs -/

theorem foldl_push_filter {α : Type} (p : α → Bool) (l init : List α) :
    l.foldl (fun acc x => if p x then acc ++ [x] else acc) init = init ++ l.filter p := by
  induction l generalizing init with
  | nil => simp
  | cons x xs ih =>
    rw [List.foldl_cons, ih]
    by_cases hx : p x = true <;> simp [hx, List.filter_cons]

/-- C6: the actions are the fixed verb list filtered to the verbs occurring
as a substring of the text, so they come in declaration order and each at
most once; `install` is found inside `installation`. -/
theorem extractEntities_actions (text : String) :
    (extractEntities text).actions =
      ["schedule", "call", "meet", "send", "review", "fix", "install", "pay", "check"].filter
        (fun verb => decide (verb.data <:+: text.data)) ∧
    (extractEntities text).actions.Sublist
      ["schedule", "call", "meet", "send", "review", "fix", "install", "pay", "check"] ∧
    (extractEntities text).actions.Nodup ∧
    (extractEntities "send it after the installation").actions = ["send", "install"] ∧
    (extractEntities "call, then call again").actions = ["call"] := by
  have h : (extractEntities text).actions =
      actionVerbs.filter (fun verb => decide (verb.data <:+: text.data)) := by
    simp only [extractEntities]
    rw [foldl_push_filter (fun verb => includes text verb) actionVerbs [], List.nil_append]
    apply List.filter_congr
    intro v _
    by_cases hv : v.data <:+: text.data
    · simp [hv, (includes_iff text v).2 hv]
    · have : includes text v = false := by
        cases hi : includes text v
        · rfl
        · exact absurd ((includes_iff text v).1 hi) hv
      simp [hv, this]
  have hnd : actionVerbs.Nodup := by decide
  refine ⟨h, ?_, ?_, by decide, by decide⟩
  · rw [h]; exact List.filter_sublist _
  · rw [h]; exact hnd.filter _

/-! ## Characters -/

theorem isLower_iff (c : Char) : c.isLower = true ↔ 97 ≤ c.toNat ∧ c.toNat ≤ 122 := by
  simp only [Char.isLower, Bool.and_eq_true, decide_eq_true_eq]
  exact Iff.rfl

theorem isUpper_iff (c : Char) : c.isUpper = true ↔ 65 ≤ c.toNat ∧ c.toNat ≤ 90 := by
  simp only [Char.isUpper, Bool.and_eq_true, decide_eq_true_eq]
  exact Iff.rfl

theorem toNat_ofNat_upper (n : Nat) (h1 : 97 ≤ n) (h2 : n ≤ 122) :
    (Char.ofNat (n - 32)).toNat = n - 32 := by
  interval_cases n <;> rfl

/-- Under `i` the class `[a-z]` holds exactly the ASCII letters. -/
theorem toUpper_isUpper (c : Char) : c.toUpper.isUpper = c.isAlpha := by
  rw [Bool.eq_iff_iff]
  simp only [Char.isAlpha, Bool.or_eq_true, isUpper_iff, isLower_iff, Char.toUpper]
  split_ifs with h
  · rw [toNat_ofNat_upper _ h.1 h.2]; omega
  · omega

theorem lowerAZ_test_ignoreCase (c : Char) : CharClass.lowerAZ.test true c = c.isAlpha := by
  simp [CharClass.test, canonicalize, toUpper_isUpper]

theorem isAlpha_of_isLower {c : Char} (h : c.isLower = true) : c.isAlpha = true := by
  simp [Char.isAlpha, h]

theorem not_isWhiteSpace_of_isAlpha {c : Char} (h : c.isAlpha = true) :
    isWhiteSpace c = false := by
  simp only [Char.isAlpha, Bool.or_eq_true, isUpper_iff, isLower_iff] at h
  simp only [isWhiteSpace, Bool.or_eq_false_iff, decide_eq_false_iff_not, Bool.and_eq_false_imp,
    decide_eq_true_eq, List.mem_cons, List.mem_nil_iff, or_false]
  omega

/-! ## The matching engine -/

theorem mem_matchRe_chr {ic : Bool} {c : Char} {s : List Char} {m : MatchState} :
    m ∈ matchRe ic (.chr c) s ↔
      ∃ d ds, s = d :: ds ∧ canonicalize ic d = canonicalize ic c ∧ m = ⟨[d], none, ds⟩ := by
  cases s with
  | nil => simp [matchRe]
  | cons d ds =>
    by_cases h : canonicalize ic d = canonicalize ic c
    · simp only [matchRe]
      rw [if_pos h, List.mem_singleton]
      constructor
      · rintro rfl; exact ⟨d, ds, rfl, h, rfl⟩
      · rintro ⟨d2, ds2, hs, _, rfl⟩; cases hs; rfl
    · simp only [matchRe]
      rw [if_neg h]
      simp only [List.not_mem_nil, false_iff]
      rintro ⟨d2, ds2, hs, h2, _⟩; cases hs; exact h h2

theorem mem_matchRe_cls {ic : Bool} {k : CharClass} {s : List Char} {m : MatchState} :
    m ∈ matchRe ic (.cls k) s ↔
      ∃ d ds, s = d :: ds ∧ k.test ic d = true ∧ m = ⟨[d], none, ds⟩ := by
  cases s with
  | nil => simp [matchRe]
  | cons d ds =>
    by_cases h : k.test ic d = true
    · simp only [matchRe]
      rw [if_pos h, List.mem_singleton]
      constructor
      · rintro rfl; exact ⟨d, ds, rfl, h, rfl⟩
      · rintro ⟨d2, ds2, hs, _, rfl⟩; cases hs; rfl
    · simp only [matchRe]
      rw [if_neg h]
      simp only [List.not_mem_nil, false_iff]
      rintro ⟨d2, ds2, hs, h2, _⟩; cases hs; exact h h2

theorem mem_matchRe_seq {ic : Bool} {a b : Regex} {s : List Char} {m : MatchState} :
    m ∈ matchRe ic (.seq a b) s ↔
      ∃ x ∈ matchRe ic a s, ∃ y ∈ matchRe ic b x.rest, m = x.andThen y := by
  simp only [matchRe, List.mem_flatMap, List.mem_map]
  constructor
  · rintro ⟨x, hx, y, hy, rfl⟩; exact ⟨x, hx, y, hy, rfl⟩
  · rintro ⟨x, hx, y, hy, rfl⟩; exact ⟨x, hx, y, hy, rfl⟩

theorem mem_matchRe_alt {ic : Bool} {a b : Regex} {s : List Char} {m : MatchState} :
    m ∈ matchRe ic (.alt a b) s ↔ m ∈ matchRe ic a s ∨ m ∈ matchRe ic b s := by
  simp [matchRe]

theorem mem_matchRe_group {ic : Bool} {a : Regex} {s : List Char} {m : MatchState} :
    m ∈ matchRe ic (.group a) s ↔
      ∃ x ∈ matchRe ic a s, m = ⟨x.matched, some x.matched, x.rest⟩ := by
  simp only [matchRe, List.mem_map]
  constructor
  · rintro ⟨x, hx, rfl⟩; exact ⟨x, hx, rfl⟩
  · rintro ⟨x, hx, rfl⟩; exact ⟨x, hx, rfl⟩

theorem matchRe_rep (ic : Bool) (min : Nat) (max : Option Nat) (a : Regex) (s : List Char) :
    matchRe ic (.rep min max a) s =
      repeatMatch (fun t => matchRe ic a t) min (max.getD (min + s.length)) s := by
  simp only [matchRe]

theorem mem_repeatMatch_succ {body : List Char → List MatchState} {min max : Nat}
    {s : List Char} {m : MatchState} :
    m ∈ repeatMatch body min (max + 1) s ↔
      (∃ y ∈ body s, ¬ (min = 0 ∧ y.matched = []) ∧
        ∃ z ∈ repeatMatch body (min - 1) max y.rest, m = y.andThen z) ∨
      (min = 0 ∧ m = ⟨[], none, s⟩) := by
  have hmore : ∀ m : MatchState,
      (m ∈ (body s).flatMap fun y =>
        if min = 0 ∧ y.matched = [] then []
        else (repeatMatch body (min - 1) max y.rest).map fun z => y.andThen z) ↔
      ∃ y ∈ body s, ¬ (min = 0 ∧ y.matched = []) ∧
        ∃ z ∈ repeatMatch body (min - 1) max y.rest, m = y.andThen z := by
    intro m
    simp only [List.mem_flatMap]
    constructor
    · rintro ⟨y, hy, hm⟩
      by_cases hc : min = 0 ∧ y.matched = []
      · rw [if_pos hc] at hm; simp at hm
      · rw [if_neg hc, List.mem_map] at hm
        obtain ⟨z, hz, rfl⟩ := hm
        exact ⟨y, hy, hc, z, hz, rfl⟩
    · rintro ⟨y, hy, hc, z, hz, rfl⟩
      refine ⟨y, hy, ?_⟩
      rw [if_neg hc, List.mem_map]
      exact ⟨z, hz, rfl⟩
  rw [repeatMatch]
  by_cases h0 : min = 0
  · rw [if_pos h0, List.mem_append, hmore m, List.mem_singleton]
    simp [h0]
  · rw [if_neg h0, hmore m]
    simp [h0]

/-- Every match state splits the input into the text matched and the rest. -/
theorem repeatMatch_split (body : List Char → List MatchState)
    (hb : ∀ s m, m ∈ body s → s = m.matched ++ m.rest) :
    ∀ (max min : Nat) (s : List Char) (m : MatchState),
      m ∈ repeatMatch body min max s → s = m.matched ++ m.rest := by
  intro max
  induction max with
  | zero =>
    intro min s m hm
    simp only [repeatMatch, List.mem_singleton] at hm
    subst hm; rfl
  | succ max ih =>
    intro min s m hm
    rcases mem_repeatMatch_succ.1 hm with ⟨y, hy, _, z, hz, rfl⟩ | ⟨_, rfl⟩
    · have h1 := hb s y hy
      have h2 := ih _ _ _ hz
      simp only [MatchState.andThen, List.append_assoc]
      rw [← h2]; exact h1
    · rfl

theorem matchRe_split (ic : Bool) (r : Regex) :
    ∀ (s : List Char) (m : MatchState), m ∈ matchRe ic r s → s = m.matched ++ m.rest := by
  induction r with
  | eps =>
    intro s m hm
    simp only [matchRe, List.mem_singleton] at hm
    subst hm; rfl
  | chr c =>
    intro s m hm
    obtain ⟨d, ds, rfl, _, rfl⟩ := mem_matchRe_chr.1 hm
    rfl
  | cls k =>
    intro s m hm
    obtain ⟨d, ds, rfl, _, rfl⟩ := mem_matchRe_cls.1 hm
    rfl
  | seq a b iha ihb =>
    intro s m hm
    obtain ⟨x, hx, y, hy, rfl⟩ := mem_matchRe_seq.1 hm
    have h1 := iha s x hx
    have h2 := ihb _ y hy
    simp only [MatchState.andThen, List.append_assoc]
    rw [← h2]; exact h1
  | alt a b iha ihb =>
    intro s m hm
    rcases mem_matchRe_alt.1 hm with h | h
    · exact iha s m h
    · exact ihb s m h
  | rep min max a iha =>
    intro s m hm
    exact repeatMatch_split (fun t => matchRe ic a t) iha _ _ _ _ hm
  | group a iha =>
    intro s m hm
    obtain ⟨x, hx, rfl⟩ := mem_matchRe_group.1 hm
    exact iha s x hx

/-- What a quantified character class can match: between `min` and `max`
characters of the class, capturing nothing. -/
theorem repeatMatch_cls_sound (ic : Bool) (k : CharClass) :
    ∀ (max min : Nat) (s : List Char) (m : MatchState), min ≤ max →
      m ∈ repeatMatch (fun t => matchRe ic (.cls k) t) min max s →
      (∀ c ∈ m.matched, k.test ic c = true) ∧ min ≤ m.matched.length ∧
        m.matched.length ≤ max ∧ m.capture = none := by
  intro max
  induction max with
  | zero =>
    intro min s m hle hm
    simp only [repeatMatch, List.mem_singleton] at hm
    subst hm
    exact ⟨by simp, by simpa using hle, by simp, rfl⟩
  | succ max ih =>
    intro min s m hle hm
    rcases mem_repeatMatch_succ.1 hm with ⟨y, hy, _, z, hz, rfl⟩ | ⟨h0, rfl⟩
    · obtain ⟨d, ds, rfl, hd, rfl⟩ := mem_matchRe_cls.1 hy
      obtain ⟨h1, h2, h3, h4⟩ := ih (min - 1) ds z (by omega) hz
      refine ⟨?_, ?_, ?_, ?_⟩
      · intro c hc
        simp only [MatchState.andThen, List.singleton_append, List.mem_cons] at hc
        rcases hc with rfl | hc
        · exact hd
        · exact h1 c hc
      · simp only [MatchState.andThen, List.singleton_append, List.length_cons]; omega
      · simp only [MatchState.andThen, List.singleton_append, List.length_cons]; omega
      · simp [MatchState.andThen, h4]
    · subst h0
      exact ⟨by simp, by simp, by simp, rfl⟩

theorem matchRe_rep_cls_sound {ic : Bool} {k : CharClass} {min : Nat} {max : Option Nat}
    {s : List Char} {m : MatchState} (hle : ∀ n, max = some n → min ≤ n)
    (hm : m ∈ matchRe ic (.rep min max (.cls k)) s) :
    (∀ c ∈ m.matched, k.test ic c = true) ∧ min ≤ m.matched.length ∧
      (∀ n, max = some n → m.matched.length ≤ n) ∧ m.capture = none := by
  simp only [matchRe] at hm
  cases max with
  | none =>
    obtain ⟨h1, h2, _, h4⟩ := repeatMatch_cls_sound ic k _ _ _ _ (by simp) hm
    exact ⟨h1, h2, by simp, h4⟩
  | some n =>
    obtain ⟨h1, h2, h3, h4⟩ := repeatMatch_cls_sound ic k _ _ _ _ (hle n rfl) hm
    refine ⟨h1, h2, ?_, h4⟩
    intro n2 hn2
    cases hn2
    exact h3

theorem matchRe_cls_cons {ic : Bool} {k : CharClass} {c : Char} (t : List Char)
    (h : k.test ic c = true) : matchRe ic (.cls k) (c :: t) = [⟨[c], none, t⟩] := by
  simp only [matchRe]
  rw [if_pos h]

theorem matchRe_cls_stop {ic : Bool} {k : CharClass} {rest : List Char}
    (h : ∀ c cs, rest = c :: cs → k.test ic c = false) : matchRe ic (.cls k) rest = [] := by
  cases rest with
  | nil => simp [matchRe]
  | cons c cs =>
    have := h c cs rfl
    simp only [matchRe]
    rw [if_neg (by simp [this])]

/-- The bound given to an unbounded quantifier over a class is enough: with
any larger bound the matches are the same. -/
theorem repeatMatch_cls_bound (ic : Bool) (k : CharClass) :
    ∀ (s : List Char) (min max : Nat), min + s.length ≤ max →
      repeatMatch (fun t => matchRe ic (.cls k) t) min (max + 1) s =
        repeatMatch (fun t => matchRe ic (.cls k) t) min max s := by
  intro s
  induction s with
  | nil =>
    intro min max h
    cases max with
    | zero =>
      have h0 : min = 0 := by simpa using h
      subst h0
      simp [repeatMatch, matchRe]
    | succ max =>
      rw [repeatMatch, repeatMatch]
      simp [matchRe]
  | cons c cs ih =>
    intro min max h
    cases max with
    | zero => simp at h
    | succ max =>
      have ih2 := ih (min - 1) max (by simp only [List.length_cons] at h; omega)
      rw [repeatMatch, repeatMatch]
      by_cases hc : k.test ic c = true
      · simp only [matchRe_cls_cons _ hc, List.flatMap_cons, List.flatMap_nil, ih2]
      · have hnil : matchRe ic (.cls k) (c :: cs) = [] := by
          simp only [matchRe]
          rw [if_neg hc]
        simp only [hnil, List.flatMap_nil]

/-- A literal word matches its own letters, up to case under `i`. -/
theorem matchRe_word_sound (ic : Bool) :
    ∀ (w s : List Char) (m : MatchState), m ∈ matchRe ic (Regex.word w) s →
      m.matched.map (canonicalize ic) = w.map (canonicalize ic) ∧ m.capture = none := by
  intro w
  induction w with
  | nil =>
    intro s m hm
    simp only [Regex.word, matchRe, List.mem_singleton] at hm
    subst hm; simp
  | cons c cs ih =>
    intro s m hm
    cases cs with
    | nil =>
      simp only [Regex.word] at hm
      obtain ⟨d, ds, rfl, hd, rfl⟩ := mem_matchRe_chr.1 hm
      simp [hd]
    | cons c2 cs2 =>
      simp only [Regex.word] at hm
      obtain ⟨x, hx, y, hy, rfl⟩ := mem_matchRe_seq.1 hm
      obtain ⟨d, ds, rfl, hd, rfl⟩ := mem_matchRe_chr.1 hx
      obtain ⟨h1, h2⟩ := ih _ y hy
      simp only [MatchState.andThen, List.singleton_append, List.map_cons, hd, h2]
      rw [h1]
      simp

theorem matchRe_words_sound (ic : Bool) :
    ∀ (ws : List String) (s : List Char) (m : MatchState), ws ≠ [] →
      m ∈ matchRe ic (Regex.words ws) s →
      (∃ w ∈ ws, m.matched.map (canonicalize ic) = w.data.map (canonicalize ic)) ∧
        m.capture = none := by
  intro ws
  induction ws with
  | nil => intro s m h; exact absurd rfl h
  | cons w rest ih =>
    intro s m _ hm
    cases rest with
    | nil =>
      simp only [Regex.words] at hm
      obtain ⟨h1, h2⟩ := matchRe_word_sound ic _ _ _ hm
      exact ⟨⟨w, List.mem_cons_self _ _, h1⟩, h2⟩
    | cons w2 rest2 =>
      simp only [Regex.words] at hm
      rcases mem_matchRe_alt.1 hm with h | h
      · obtain ⟨h1, h2⟩ := matchRe_word_sound ic _ _ _ h
        exact ⟨⟨w, List.mem_cons_self _ _, h1⟩, h2⟩
      · obtain ⟨⟨w3, hw3, h1⟩, h2⟩ := ih s m (by simp) h
        exact ⟨⟨w3, List.mem_cons_of_mem _ hw3, h1⟩, h2⟩

/-! ## The global search -/

theorem matchAt_split {re : RegExp} {s : List Char} {m : MatchState}
    (h : matchAt re s = some m) : s = m.matched ++ m.rest :=
  matchRe_split _ _ _ _ (List.mem_of_mem_head? h)

/-- Passing over `n` characters of the last match is dropping them. -/
theorem execAll_skip (re : RegExp) :
    ∀ (s : List Char) (n : Nat), n ≤ s.length → execAll re n s = execAll re 0 (s.drop n) := by
  intro s
  induction s with
  | nil =>
    intro n hn
    have : n = 0 := by simpa using hn
    subst this; rfl
  | cons c cs ih =>
    intro n hn
    cases n with
    | zero => rfl
    | succ n =>
      rw [execAll, List.drop_succ_cons]
      exact ih n (by simpa using hn)

/-- After a match that is not empty the search goes on in the rest of the
input: the counter of `execAll` is the `lastIndex` of the pattern. -/
theorem execAll_of_match {re : RegExp} {s : List Char} {m : MatchState}
    (h : matchAt re s = some m) (hne : m.matched ≠ []) :
    execAll re 0 s = m :: execAll re 0 m.rest := by
  have hs := matchAt_split h
  cases s with
  | nil =>
    exfalso
    cases hm : m.matched with
    | nil => exact hne hm
    | cons a as => rw [hm] at hs; simp at hs
  | cons c cs =>
    rw [execAll]
    simp only [h]
    cases hm : m.matched with
    | nil => exact absurd hm hne
    | cons a as =>
      rw [hm] at hs
      simp only [List.cons_append, List.cons.injEq] at hs
      obtain ⟨-, rfl⟩ := hs
      rw [execAll_skip re _ _ (by simp)]
      simp

theorem execAll_of_no_match {re : RegExp} {c : Char} {cs : List Char}
    (h : matchAt re (c :: cs) = none) : execAll re 0 (c :: cs) = execAll re 0 cs := by
  rw [execAll]
  simp only [h]

/-- Every match reported is the match the engine finds at some position. -/
theorem execAll_mem (re : RegExp) :
    ∀ (s : List Char) (n : Nat) (m : MatchState), m ∈ execAll re n s →
      ∃ t, t <:+ s ∧ matchAt re t = some m := by
  intro s
  induction s with
  | nil =>
    intro n m hm
    cases n with
    | zero =>
      simp only [execAll, Option.mem_toList, Option.mem_def] at hm
      exact ⟨[], List.suffix_refl _, hm⟩
    | succ n => simp [execAll] at hm
  | cons c cs ih =>
    intro n m hm
    cases n with
    | succ n =>
      rw [execAll] at hm
      obtain ⟨t, ht, h⟩ := ih n m hm
      exact ⟨t, ht.trans (List.suffix_cons c cs), h⟩
    | zero =>
      rw [execAll] at hm
      cases h : matchAt re (c :: cs) with
      | none =>
        simp only [h] at hm
        obtain ⟨t, ht, h2⟩ := ih 0 m hm
        exact ⟨t, ht.trans (List.suffix_cons c cs), h2⟩
      | some x =>
        simp only [h, List.mem_cons] at hm
        rcases hm with rfl | hm
        · exact ⟨c :: cs, List.suffix_refl _, h⟩
        · obtain ⟨t, ht, h2⟩ := ih _ m hm
          exact ⟨t, ht.trans (List.suffix_cons c cs), h2⟩

/-- Nothing is reported where the engine finds no match at any position. -/
theorem execAll_eq_nil {re : RegExp} {s : List Char}
    (h : ∀ t, t <:+ s → matchAt re t = none) : execAll re 0 s = [] := by
  cases hx : execAll re 0 s with
  | nil => rfl
  | cons m ms =>
    obtain ⟨t, ht, h2⟩ := execAll_mem re s 0 m (by rw [hx]; exact List.mem_cons_self _ _)
    rw [h t ht] at h2
    cases h2

theorem occurInOrder_cons (c : Char) :
    ∀ (ms : List (List Char)) (s : List Char), OccurInOrder ms s → OccurInOrder ms (c :: s) := by
  intro ms s h
  cases ms with
  | nil => trivial
  | cons m ms =>
    obtain ⟨before, after, rfl, h2⟩ := h
    exact ⟨c :: before, after, by simp, h2⟩

/-- The matches reported are found in the input from left to right and do
not overlap. -/
theorem execAll_occurInOrder (re : RegExp) :
    ∀ (s : List Char) (n : Nat),
      OccurInOrder ((execAll re n s).map fun x => x.matched) (s.drop n) := by
  intro s
  induction s with
  | nil =>
    intro n
    cases n with
    | zero =>
      cases h : matchAt re [] with
      | none => simp [execAll, h, OccurInOrder]
      | some m =>
        have hs := matchAt_split h
        simp only [execAll, h, Option.toList, List.map_cons, List.map_nil, List.drop_nil]
        exact ⟨[], m.rest, by simpa using hs, trivial⟩
    | succ n => simp [execAll, OccurInOrder]
  | cons c cs ih =>
    intro n
    cases n with
    | succ n =>
      rw [execAll, List.drop_succ_cons]
      exact ih n
    | zero =>
      rw [execAll, List.drop_zero]
      cases h : matchAt re (c :: cs) with
      | none =>
        simp only [h]
        have := ih 0
        rw [List.drop_zero] at this
        exact occurInOrder_cons c _ _ this
      | some m =>
        simp only [h, List.map_cons]
        have hs := matchAt_split h
        refine ⟨[], m.rest, by simpa using hs, ?_⟩
        have h2 := ih (m.matched.length - 1)
        cases hm : m.matched with
        | nil =>
          rw [hm] at hs h2
          simp only [List.length_nil, List.nil_append] at hs h2
          rw [← hs]
          have h3 : OccurInOrder (List.map (fun x => x.matched) (execAll re 0 cs)) cs := by
            simpa using h2
          exact occurInOrder_cons c _ _ h3
        | cons a as =>
          rw [hm] at hs h2
          simp only [List.cons_append, List.cons.injEq] at hs
          obtain ⟨-, rfl⟩ := hs
          simpa using h2

/-! ## Claim C7: dates -/

theorem stringMatch_push (text : String) (pattern : RegExp) (acc : List String) :
    (match stringMatch text pattern with
      | some found => acc ++ found
      | none => acc) = acc ++ allMatches text pattern := by
  unfold stringMatch allMatches
  cases execAll pattern 0 text.data <;> simp

theorem extractEntities_dates_eq (text : String) :
    (extractEntities text).dates =
      allMatches text dayPattern ++ allMatches text slashPattern ++
        allMatches text dashPattern := by
  simp only [extractEntities, datePatterns, List.foldl_cons, List.foldl_nil, stringMatch_push,
    List.nil_append]

theorem allMatches_mem {text : String} {pattern : RegExp} {d : String}
    (h : d ∈ allMatches text pattern) :
    ∃ m t, t <:+ text.data ∧ m ∈ matchRe pattern.ignoreCase pattern.source t ∧
      d = String.mk m.matched := by
  simp only [allMatches, List.mem_map] at h
  obtain ⟨m, hm, rfl⟩ := h
  obtain ⟨t, ht, h2⟩ := execAll_mem _ _ _ _ hm
  exact ⟨m, t, ht, List.mem_of_mem_head? h2, rfl⟩

theorem allMatches_occurInOrder (text : String) (pattern : RegExp) :
    OccurInOrder ((allMatches text pattern).map String.data) text.data := by
  have h := execAll_occurInOrder pattern text.data 0
  simpa [allMatches, Function.comp_def] using h

theorem numericDate_sound {sep : Char} {s : List Char} {m : MatchState}
    (hm : m ∈ matchRe false (numericDate sep) s) : IsNumericDate sep (String.mk m.matched) := by
  simp only [numericDate] at hm
  obtain ⟨x1, h1, y1, hy1, rfl⟩ := mem_matchRe_seq.1 hm
  obtain ⟨x2, h2, y2, hy2, rfl⟩ := mem_matchRe_seq.1 hy1
  obtain ⟨x3, h3, y3, hy3, rfl⟩ := mem_matchRe_seq.1 hy2
  obtain ⟨x4, h4, y4, hy4, rfl⟩ := mem_matchRe_seq.1 hy3
  obtain ⟨a1, a2, a3, -⟩ := matchRe_rep_cls_sound (by intro n hn; cases hn; decide) h1
  obtain ⟨b1, b2, b3, -⟩ := matchRe_rep_cls_sound (by intro n hn; cases hn; decide) h3
  obtain ⟨c1, c2, c3, -⟩ := matchRe_rep_cls_sound (by intro n hn; cases hn; decide) hy4
  obtain ⟨d1, ds1, -, e1, rfl⟩ := mem_matchRe_chr.1 h2
  obtain ⟨d2, ds2, -, e2, rfl⟩ := mem_matchRe_chr.1 h4
  simp only [canonicalize, Bool.false_eq_true, if_false] at e1 e2
  subst e1 e2
  refine ⟨x1.matched, x3.matched, y4.matched, ?_, ?_, a2, a3 2 rfl, b2, b3 2 rfl, c2, c3 4 rfl⟩
  · simp [MatchState.andThen]
  · intro x hx
    simp only [List.mem_append] at hx
    rcases hx with (hx | hx) | hx
    · exact a1 x hx
    · exact b1 x hx
    · exact c1 x hx

/-- C7: the dates are the matches of the day keywords, then those of the
slash pattern, then those of the dash pattern; each family lists the matches
found from left to right without overlap, duplicates kept, so a keyword date
comes before a slash date wherever they stand in the text. -/
theorem extractEntities_dates (text : String) :
    (extractEntities text).dates =
      allMatches text dayPattern ++ allMatches text slashPattern ++
        allMatches text dashPattern ∧
    (∀ p ∈ [dayPattern, slashPattern, dashPattern],
      OccurInOrder ((allMatches text p).map String.data) text.data) ∧
    (∀ d ∈ allMatches text dayPattern,
      ∃ k ∈ ["today", "tomorrow", "monday", "tuesday", "wednesday", "thursday", "friday",
        "saturday", "sunday"], d.data.map Char.toUpper = k.data.map Char.toUpper) ∧
    (∀ d ∈ allMatches text slashPattern, IsNumericDate '/' d) ∧
    (∀ d ∈ allMatches text dashPattern, IsNumericDate '-' d) ∧
    (extractEntities "on 12/25/2024 or 1-2-25, tomorrow and tomorrow").dates =
      ["tomorrow", "tomorrow", "12/25/2024", "1-2-25"] := by
  refine ⟨extractEntities_dates_eq text, fun p _ => allMatches_occurInOrder text p, ?_, ?_, ?_,
    by decide⟩
  · intro d hd
    obtain ⟨m, t, -, hm, rfl⟩ := allMatches_mem hd
    obtain ⟨⟨k, hk, h⟩, -⟩ := matchRe_words_sound true _ t m (by simp) hm
    refine ⟨k, hk, ?_⟩
    simpa [canonicalize] using h
  · intro d hd
    obtain ⟨m, t, -, hm, rfl⟩ := allMatches_mem hd
    exact numericDate_sound hm
  · intro d hd
    obtain ⟨m, t, -, hm, rfl⟩ := allMatches_mem hd
    exact numericDate_sound hm

/-! ## The first match of a pattern -/

/-- A greedy quantified class takes the whole run `w` of class characters
first, when the run ends at `rest`. -/
theorem head_repeatMatch_cls (ic : Bool) (k : CharClass) (rest : List Char)
    (hrest : ∀ c cs, rest = c :: cs → k.test ic c = false) :
    ∀ (w : List Char) (max min : Nat), (∀ c ∈ w, k.test ic c = true) →
      min ≤ w.length → w.length ≤ max →
      (repeatMatch (fun t => matchRe ic (.cls k) t) min max (w ++ rest)).head? =
        some ⟨w, none, rest⟩ := by
  intro w
  induction w with
  | nil =>
    intro max min _ hmin _
    have h0 : min = 0 := by simpa using hmin
    subst h0
    cases max with
    | zero => simp [repeatMatch]
    | succ max =>
      rw [repeatMatch]
      simp [matchRe_cls_stop hrest]
  | cons c w ih =>
    intro max min hw hmin hmax
    cases max with
    | zero => simp at hmax
    | succ max =>
      have hc : k.test ic c = true := hw c (List.mem_cons_self _ _)
      have ih2 := ih max (min - 1) (fun d hd => hw d (List.mem_cons_of_mem _ hd))
        (by simp only [List.length_cons] at hmin; omega)
        (by simp only [List.length_cons] at hmax; omega)
      rw [repeatMatch]
      simp only [List.cons_append, matchRe_cls_cons _ hc, List.flatMap_cons, List.flatMap_nil,
        List.append_nil]
      have hcond : ¬ (min = 0 ∧ [c] = ([] : List Char)) := by simp
      simp only [if_neg hcond]
      by_cases h0 : min = 0
      · rw [if_pos h0, List.head?_append, List.head?_map, ih2]
        simp [MatchState.andThen]
      · rw [if_neg h0, List.head?_map, ih2]
        simp [MatchState.andThen]

theorem head_plus_cls (ic : Bool) {k : CharClass} {w rest : List Char} (hne : w ≠ [])
    (hw : ∀ c ∈ w, k.test ic c = true) (hrest : ∀ c cs, rest = c :: cs → k.test ic c = false) :
    (matchRe ic (.rep 1 none (.cls k)) (w ++ rest)).head? = some ⟨w, none, rest⟩ := by
  simp only [matchRe, Option.getD_none]
  apply head_repeatMatch_cls ic k rest hrest w _ _ hw
  · cases w with
    | nil => exact absurd rfl hne
    | cons c cs => simp
  · simp only [List.length_append]; omega

theorem head_seq {ic : Bool} {a b : Regex} {s : List Char} {x y : MatchState}
    (hx : (matchRe ic a s).head? = some x) (hy : (matchRe ic b x.rest).head? = some y) :
    (matchRe ic (.seq a b) s).head? = some (x.andThen y) := by
  simp only [matchRe]
  cases ha : matchRe ic a s with
  | nil => rw [ha] at hx; cases hx
  | cons x2 xs =>
    rw [ha] at hx
    simp only [List.head?_cons, Option.some.injEq] at hx
    subst hx
    rw [List.flatMap_cons, List.head?_append, List.head?_map, hy]
    rfl

theorem head_group {ic : Bool} {a : Regex} {s : List Char} {x : MatchState}
    (hx : (matchRe ic a s).head? = some x) :
    (matchRe ic (.group a) s).head? = some ⟨x.matched, some x.matched, x.rest⟩ := by
  simp only [matchRe, List.head?_map, hx, Option.map_some']

theorem head_optional {ic : Bool} {a : Regex} {s : List Char} {y : MatchState}
    (hy : (matchRe ic a s).head? = some y) (hne : y.matched ≠ []) :
    (matchRe ic (.rep 0 (some 1) a) s).head? = some ⟨y.matched, y.capture, y.rest⟩ := by
  simp only [matchRe, Option.getD_some]
  rw [repeatMatch]
  cases ha : matchRe ic a s with
  | nil => rw [ha] at hy; cases hy
  | cons y2 ys =>
    rw [ha] at hy
    simp only [List.head?_cons, Option.some.injEq] at hy
    subst hy
    simp [repeatMatch, hne, MatchState.andThen]

theorem head_triggers (T X : List Char) (hT : T ∈ ["with".data, "by".data, "assign to".data]) :
    (matchRe true (Regex.words ["with", "by", "assign to"]) (T ++ X)).head? =
      some ⟨T, none, X⟩ := by
  simp only [List.mem_cons, List.mem_nil_iff, or_false] at hT
  rcases hT with rfl | rfl | rfl <;>
    simp [Regex.words, Regex.word, matchRe, canonicalize, MatchState.andThen]

/-! ## Claims C8 and C9: people -/

theorem word_of_rep_lowerAZ {s : List Char} {m : MatchState}
    (hm : m ∈ matchRe true (.rep 1 none (.cls .lowerAZ)) s) :
    IsWord m.matched ∧ m.capture = none := by
  obtain ⟨h1, h2, -, h4⟩ := matchRe_rep_cls_sound (by intro n hn; cases hn) hm
  refine ⟨⟨?_, ?_⟩, h4⟩
  · intro h; rw [h] at h2; simp at h2
  · intro c hc
    rw [← lowerAZ_test_ignoreCase]
    exact h1 c hc

theorem blank_of_rep_space {s : List Char} {m : MatchState}
    (hm : m ∈ matchRe true (.rep 1 none (.cls .space)) s) :
    IsBlank m.matched ∧ m.capture = none := by
  obtain ⟨h1, h2, -, h4⟩ := matchRe_rep_cls_sound (by intro n hn; cases hn) hm
  refine ⟨⟨?_, ?_⟩, h4⟩
  · intro h; rw [h] at h2; simp at h2
  · intro c hc
    exact h1 c hc

/-- What the name part of `peoplePattern` can match. -/
theorem namePart_sound {s : List Char} {m : MatchState} (hm : m ∈ matchRe true namePart s) :
    ∃ a, IsWord a ∧
      (m.matched = a ∨ ∃ ws b, IsBlank ws ∧ IsWord b ∧ m.matched = a ++ ws ++ b) := by
  simp only [namePart] at hm
  obtain ⟨x, hx, y, hy, rfl⟩ := mem_matchRe_seq.1 hm
  obtain ⟨hxa, -⟩ := word_of_rep_lowerAZ hx
  refine ⟨x.matched, hxa, ?_⟩
  rw [matchRe_rep, Option.getD_some] at hy
  rcases mem_repeatMatch_succ.1 hy with ⟨y2, hy2, -, z, hz, rfl⟩ | ⟨-, rfl⟩
  · right
    simp only [repeatMatch, List.mem_singleton] at hz
    subst hz
    obtain ⟨u, hu, v, hv, rfl⟩ := mem_matchRe_seq.1 hy2
    obtain ⟨hub, -⟩ := blank_of_rep_space hu
    obtain ⟨hvw, -⟩ := word_of_rep_lowerAZ hv
    exact ⟨u.matched, v.matched, hub, hvw, by simp [MatchState.andThen]⟩
  · left
    simp [MatchState.andThen]

/-- What `peoplePattern` can match: a trigger in any letter case, white
space, and the captured name. -/
theorem people_sound {t : List Char} {m : MatchState}
    (hm : m ∈ matchRe peoplePattern.ignoreCase peoplePattern.source t) :
    ∃ trig ws name, m.matched = trig ++ ws ++ name ∧ m.capture = some name ∧
      (∃ k ∈ ["with", "by", "assign to"], trig.map Char.toUpper = k.data.map Char.toUpper) ∧
      IsBlank ws ∧ IsName (String.mk name) := by
  simp only [peoplePattern] at hm
  obtain ⟨x, hx, y, hy, rfl⟩ := mem_matchRe_seq.1 hm
  obtain ⟨u, hu, v, hv, rfl⟩ := mem_matchRe_seq.1 hy
  obtain ⟨n, hn, rfl⟩ := mem_matchRe_group.1 hv
  obtain ⟨⟨k, hk, hkx⟩, -⟩ := matchRe_words_sound true _ _ _ (by simp) hx
  obtain ⟨hub, -⟩ := blank_of_rep_space hu
  refine ⟨x.matched, u.matched, n.matched, ?_, ?_, ⟨k, hk, ?_⟩, hub, namePart_sound hn⟩
  · simp [MatchState.andThen]
  · simp [MatchState.andThen]
  · simpa [canonicalize] using hkx

/-- C9, as amended: every extracted name is one word of ASCII letters of
either case, or two such words separated by one or more white-space
characters. -/
theorem people_shape (text p : String) (h : p ∈ (extractEntities text).people) : IsName p := by
  simp only [extractEntities, List.mem_map] at h
  obtain ⟨m, hm, rfl⟩ := h
  obtain ⟨t, -, h2⟩ := execAll_mem _ _ _ _ hm
  obtain ⟨trig, ws, name, -, hcap, -, -, hname⟩ := people_sound (List.mem_of_mem_head? h2)
  rw [hcap]
  exact hname

theorem people_shape_witness :
    "John  Smith" ∈ (extractEntities "meet with John  Smith").people ∧ IsName "John  Smith" :=
  ⟨by decide, people_shape "meet with John  Smith" "John  Smith" (by decide)⟩

theorem not_isLower_space : ¬ (' '.isLower = true) := by decide

theorem not_specName_of_two_spaces {p : String} (h : 2 ≤ p.data.count ' ') : ¬ IsSpecName p := by
  rintro ⟨a, ⟨-, ha⟩, h1 | ⟨b, ⟨-, hb⟩, h1⟩⟩
  · have h0 : a.count ' ' = 0 := List.count_eq_zero.2 fun hin => not_isLower_space (ha _ hin)
    rw [h1, h0] at h
    omega
  · have h0 : a.count ' ' = 0 := List.count_eq_zero.2 fun hin => not_isLower_space (ha _ hin)
    have h2 : b.count ' ' = 0 := List.count_eq_zero.2 fun hin => not_isLower_space (hb _ hin)
    rw [h1] at h
    simp only [List.count_append, h0, h2, List.count_singleton_self] at h
    omega

theorem not_specName_of_capital {p : String} {c : Char} (hc : c ∈ p.data)
    (hnl : c.isLower = false) (hns : c ≠ ' ') : ¬ IsSpecName p := by
  rintro ⟨a, ⟨-, ha⟩, h1 | ⟨b, ⟨-, hb⟩, h1⟩⟩
  · rw [h1] at hc
    rw [ha c hc] at hnl
    cases hnl
  · rw [h1] at hc
    simp only [List.mem_append, List.mem_singleton] at hc
    rcases hc with (hc | hc) | hc
    · rw [ha c hc] at hnl; cases hnl
    · exact hns hc
    · rw [hb c hc] at hnl; cases hnl

/-- C9 as stated fails: two spaces between the words are captured with the
name, and so are capital letters. -/
theorem people_shape_counterexample :
    ("john  smith" ∈ (extractEntities "with john  smith").people ∧
      ¬ IsSpecName "john  smith") ∧
    ("John" ∈ (extractEntities "with John").people ∧ ¬ IsSpecName "John") :=
  ⟨⟨by decide, not_specName_of_two_spaces (by decide)⟩,
    ⟨by decide, not_specName_of_capital (c := 'J') (by decide) (by decide) (by decide)⟩⟩

theorem space_test (c : Char) : CharClass.space.test true c = isWhiteSpace c := rfl

theorem isAlpha_of_mem_lowerWord {w : List Char} (hw : IsLowerWord w) {c : Char} (hc : c ∈ w) :
    c.isAlpha = true :=
  isAlpha_of_isLower (hw.2 c hc)

/-- The first character after a lower-case word followed by `rest` is a
letter. -/
theorem lowerWord_append_head {w rest : List Char} (hw : IsLowerWord w) :
    ∀ c cs, w ++ rest = c :: cs → c.isAlpha = true := by
  intro c cs h
  obtain ⟨hne, hl⟩ := hw
  cases w with
  | nil => exact absurd rfl hne
  | cons d ds =>
    simp only [List.cons_append, List.cons.injEq] at h
    obtain ⟨rfl, -⟩ := h
    exact isAlpha_of_isLower (hl d (List.mem_cons_self _ _))

/-- The match `peoplePattern` finds at a trigger followed by two lower-case
words: both words are captured, and the match ends after the second. -/
theorem people_head (T w1 w2 tail : List Char)
    (hT : T ∈ ["with".data, "by".data, "assign to".data])
    (h1 : IsLowerWord w1) (h2 : IsLowerWord w2)
    (htail : ∀ c cs, tail = c :: cs → c.isAlpha = false) :
    matchAt peoplePattern (T ++ ([' '] ++ (w1 ++ ([' '] ++ (w2 ++ tail))))) =
      some ⟨T ++ ([' '] ++ (w1 ++ ([' '] ++ w2))), some (w1 ++ ([' '] ++ w2)), tail⟩ := by
  have hsp : ∀ c ∈ [' '], CharClass.space.test true c = true := by decide
  have hstop1 : ∀ c cs, w1 ++ ([' '] ++ (w2 ++ tail)) = c :: cs →
      CharClass.space.test true c = false := fun c cs h =>
    not_isWhiteSpace_of_isAlpha (lowerWord_append_head h1 c cs h)
  have hstop2 : ∀ c cs, w2 ++ tail = c :: cs → CharClass.space.test true c = false :=
    fun c cs h => not_isWhiteSpace_of_isAlpha (lowerWord_append_head h2 c cs h)
  have hw1 : ∀ c ∈ w1, CharClass.lowerAZ.test true c = true := fun c hc => by
    rw [lowerAZ_test_ignoreCase]; exact isAlpha_of_mem_lowerWord h1 hc
  have hw2 : ∀ c ∈ w2, CharClass.lowerAZ.test true c = true := fun c hc => by
    rw [lowerAZ_test_ignoreCase]; exact isAlpha_of_mem_lowerWord h2 hc
  have hstop3 : ∀ c cs, [' '] ++ (w2 ++ tail) = c :: cs →
      CharClass.lowerAZ.test true c = false := by
    intro c cs h
    simp only [List.singleton_append, List.cons.injEq] at h
    obtain ⟨rfl, -⟩ := h
    decide
  have hstop4 : ∀ c cs, tail = c :: cs → CharClass.lowerAZ.test true c = false := by
    intro c cs h
    rw [lowerAZ_test_ignoreCase]
    exact htail c cs h
  -- the name part
  have e1 := head_plus_cls true h1.1 hw1 hstop3
  have e2 := head_plus_cls true (by simp) hsp hstop2
  have e3 := head_plus_cls true h2.1 hw2 hstop4
  have e4 := head_optional (head_seq e2 e3) (by simp [MatchState.andThen])
  have e5 := head_group (head_seq e1 e4)
  -- the trigger and the white space before the name
  have e6 := head_triggers T ([' '] ++ (w1 ++ ([' '] ++ (w2 ++ tail)))) hT
  have e7 := head_plus_cls true (by simp) hsp hstop1
  have e8 := head_seq e6 (head_seq e7 e5)
  simp only [matchAt, peoplePattern, namePart]
  rw [e8]
  simp [MatchState.andThen]

/-- The first character of a trigger, in any letter case, is a letter. -/
theorem trigger_head {trig : List Char}
    (h : ∃ k ∈ ["with", "by", "assign to"], trig.map Char.toUpper = k.data.map Char.toUpper) :
    ∃ c cs, trig = c :: cs ∧ c.isAlpha = true := by
  obtain ⟨k, hk, hmap⟩ := h
  have key : ∃ u us, trig.map Char.toUpper = u :: us ∧ u.isUpper = true := by
    simp only [List.mem_cons, List.mem_nil_iff, or_false] at hk
    rcases hk with rfl | rfl | rfl
    · exact ⟨'W', ['I', 'T', 'H'], by rw [hmap]; decide, by decide⟩
    · exact ⟨'B', ['Y'], by rw [hmap]; decide, by decide⟩
    · exact ⟨'A', ['S', 'S', 'I', 'G', 'N', ' ', 'T', 'O'], by rw [hmap]; decide, by decide⟩
  obtain ⟨u, us, hu, hupper⟩ := key
  cases trig with
  | nil => simp at hu
  | cons c cs =>
    simp only [List.map_cons, List.cons.injEq] at hu
    refine ⟨c, cs, rfl, ?_⟩
    rw [← toUpper_isUpper, hu.1]
    exact hupper

/-- No match of `peoplePattern` starts at white space or at the end of the
input, and none lies in a text without white space. -/
theorem people_no_match (t : List Char)
    (h : (∀ c cs, t = c :: cs → isWhiteSpace c = true) ∨ (∀ c ∈ t, isWhiteSpace c = false)) :
    matchAt peoplePattern t = none := by
  cases hm : matchAt peoplePattern t with
  | none => rfl
  | some m =>
    exfalso
    have hsplit := matchAt_split hm
    obtain ⟨trig, ws, name, hmat, -, htrig, hblank, -⟩ := people_sound (List.mem_of_mem_head? hm)
    obtain ⟨c, cs, rfl, hc⟩ := trigger_head htrig
    rw [hmat] at hsplit
    rcases h with h | h
    · have := h c (cs ++ ws ++ name ++ m.rest) (by simpa using hsplit)
      rw [not_isWhiteSpace_of_isAlpha hc] at this
      cases this
    · obtain ⟨hne, hws⟩ := hblank
      cases ws with
      | nil => exact hne rfl
      | cons d ds =>
        have hd : d ∈ t := by rw [hsplit]; simp
        have := h d hd
        rw [hws d (List.mem_cons_self _ _)] at this
        cases this

/-- The people found in a trigger followed by two lower-case words, and
possibly a third: the one name made of the first two words. -/
theorem people_list (T w1 w2 tail : List Char)
    (hT : T ∈ ["with".data, "by".data, "assign to".data])
    (h1 : IsLowerWord w1) (h2 : IsLowerWord w2)
    (htail : tail = [] ∨ ∃ w3, IsLowerWord w3 ∧ tail = [' '] ++ w3) :
    execAll peoplePattern 0 (T ++ ([' '] ++ (w1 ++ ([' '] ++ (w2 ++ tail))))) =
      [⟨T ++ ([' '] ++ (w1 ++ ([' '] ++ w2))), some (w1 ++ ([' '] ++ w2)), tail⟩] := by
  have hstop : ∀ c cs, tail = c :: cs → c.isAlpha = false := by
    intro c cs h
    rcases htail with rfl | ⟨w3, -, rfl⟩
    · cases h
    · simp only [List.singleton_append, List.cons.injEq] at h
      obtain ⟨rfl, -⟩ := h
      decide
  have hhead := people_head T w1 w2 tail hT h1 h2 hstop
  rw [execAll_of_match hhead (by simp)]
  have hrest : execAll peoplePattern 0 tail = [] := by
    apply execAll_eq_nil
    intro t ht
    apply people_no_match
    rcases htail with rfl | ⟨w3, hw3, rfl⟩
    · left
      intro c cs h
      rw [List.suffix_nil.1 ht] at h
      cases h
    · simp only [List.singleton_append] at ht
      rcases List.suffix_cons_iff.1 ht with rfl | ht
      · left
        intro c cs h
        simp only [List.cons.injEq] at h
        obtain ⟨rfl, -⟩ := h
        decide
      · right
        intro c hc
        exact not_isWhiteSpace_of_isAlpha (isAlpha_of_mem_lowerWord hw3 (ht.subset hc))
  simp only [hrest]

/-- C8: after a trigger, two lower-case words are captured whole as one
name, without the trigger, and a third word is dropped. -/
theorem people_two_words (T w1 w2 w3 : String) (hT : T ∈ ["with", "by", "assign to"])
    (h1 : IsLowerWord w1.data) (h2 : IsLowerWord w2.data) (h3 : IsLowerWord w3.data) :
    (extractEntities (T ++ " " ++ w1 ++ " " ++ w2)).people = [w1 ++ " " ++ w2] ∧
    (extractEntities (T ++ " " ++ w1 ++ " " ++ w2 ++ " " ++ w3)).people =
      [w1 ++ " " ++ w2] := by
  have hsp : " ".data = [' '] := rfl
  have hT2 : T.data ∈ ["with".data, "by".data, "assign to".data] := by
    simp only [List.mem_cons, List.mem_nil_iff, or_false] at hT ⊢
    rcases hT with rfl | rfl | rfl <;> simp
  have hname : String.mk (w1.data ++ ([' '] ++ w2.data)) = w1 ++ " " ++ w2 := by
    apply String.ext
    simp [String.data_append, hsp]
  have ha := people_list T.data w1.data w2.data [] hT2 h1 h2 (Or.inl rfl)
  have hb := people_list T.data w1.data w2.data ([' '] ++ w3.data) hT2 h1 h2
    (Or.inr ⟨w3.data, h3, rfl⟩)
  constructor
  · simp only [extractEntities]
    have hd : (T ++ " " ++ w1 ++ " " ++ w2).data =
        T.data ++ ([' '] ++ (w1.data ++ ([' '] ++ (w2.data ++ [])))) := by
      simp [String.data_append, hsp]
    rw [hd, ha]
    simp only [List.map_cons, List.map_nil, Option.getD_some, hname]
  · simp only [extractEntities]
    have hd : (T ++ " " ++ w1 ++ " " ++ w2 ++ " " ++ w3).data =
        T.data ++ ([' '] ++ (w1.data ++ ([' '] ++ (w2.data ++ ([' '] ++ w3.data))))) := by
      simp [String.data_append, hsp]
    rw [hd, hb]
    simp only [List.map_cons, List.map_nil, Option.getD_some, hname]

theorem people_two_words_witness :
    "assign to" ∈ ["with", "by", "assign to"] ∧ IsLowerWord "mary".data ∧
    IsLowerWord "johnson".data ∧ IsLowerWord "now".data ∧
    (extractEntities ("assign to" ++ " " ++ "mary" ++ " " ++ "johnson")).people =
      ["mary" ++ " " ++ "johnson"] ∧
    (extractEntities ("assign to" ++ " " ++ "mary" ++ " " ++ "johnson" ++ " " ++ "now")).people =
      ["mary" ++ " " ++ "johnson"] :=
  ⟨by decide, by unfold IsLowerWord; decide, by unfold IsLowerWord; decide,
    by unfold IsLowerWord; decide,
    people_two_words "assign to" "mary" "johnson" "now" (by decide) (by unfold IsLowerWord; decide)
      (by unfold IsLowerWord; decide) (by unfold IsLowerWord; decide)⟩

/-! ## Claim C10: letter case -/

/-- C10, the code at the failing input: the day and the person written in
capitals are extracted, the verbs written in capitals are not, though they
are extracted from the lower-cased text. -/
theorem extractEntities_case_of_verbs :
    (extractEntities "SCHEDULE CALL WITH BOB ON MONDAY").dates = ["MONDAY"] ∧
    (extractEntities "SCHEDULE CALL WITH BOB ON MONDAY").people = ["BOB ON"] ∧
    (extractEntities "SCHEDULE CALL WITH BOB ON MONDAY").actions = [] ∧
    (extractEntities (toLowerCase "SCHEDULE CALL WITH BOB ON MONDAY")).actions =
      ["schedule", "call"] := by
  decide

/-! ## Claim C11: nothing to extract -/

/-- The text of a match found at some position of `s` occurs in `s`. -/
theorem matched_occurs {ic : Bool} {r : Regex} {s t : List Char} {m : MatchState}
    (ht : t <:+ s) (hm : m ∈ matchRe ic r t) : m.matched <:+: s := by
  obtain ⟨a, rfl⟩ := ht
  refine ⟨a, m.rest, ?_⟩
  rw [List.append_assoc, ← matchRe_split ic r t m hm]

theorem infix_map_toUpper {t s : List Char} (h : t <:+: s) :
    t.map Char.toUpper <:+: s.map Char.toUpper := by
  obtain ⟨a, b, rfl⟩ := h
  exact ⟨a.map Char.toUpper, b.map Char.toUpper, by simp⟩

theorem allMatches_eq_nil {text : String} {pattern : RegExp}
    (h : ∀ t m, t <:+ text.data → m ∈ matchRe pattern.ignoreCase pattern.source t → False) :
    allMatches text pattern = [] := by
  have hx : execAll pattern 0 text.data = [] := by
    apply execAll_eq_nil
    intro t ht
    cases hm : matchAt pattern t with
    | none => rfl
    | some m => exact (h t m ht (List.mem_of_mem_head? hm)).elim
  simp only [allMatches, hx, List.map_nil]

/-- A numeric date holds a digit. -/
theorem numericDate_digit {sep : Char} {s : List Char} {m : MatchState}
    (hm : m ∈ matchRe false (numericDate sep) s) : ∃ c ∈ m.matched, c.isDigit = true := by
  obtain ⟨a, b, c, hd, hdig, ha, -⟩ := numericDate_sound hm
  cases a with
  | nil => simp at ha
  | cons x xs =>
    refine ⟨x, ?_, hdig x (by simp)⟩
    have hd2 : m.matched = x :: xs ++ [sep] ++ b ++ [sep] ++ c := hd
    rw [hd2]
    simp

theorem dates_eq_nil {text : String}
    (hday : ¬ occursAnyCase text ["today", "tomorrow", "monday", "tuesday", "wednesday",
      "thursday", "friday", "saturday", "sunday"])
    (hdigit : ∀ c ∈ text.data, c.isDigit = false) : (extractEntities text).dates = [] := by
  have h1 : allMatches text dayPattern = [] := by
    apply allMatches_eq_nil
    intro t m ht hm
    obtain ⟨⟨k, hk, hmap⟩, -⟩ := matchRe_words_sound true _ t m (by simp) hm
    apply hday
    refine ⟨k, hk, ?_⟩
    have hin := infix_map_toUpper (matched_occurs ht hm)
    have hmap2 : m.matched.map Char.toUpper = k.data.map Char.toUpper := by
      simpa [canonicalize] using hmap
    rw [← hmap2]
    exact hin
  have hnum : ∀ sep : Char, allMatches text ⟨numericDate sep, false⟩ = [] := by
    intro sep
    apply allMatches_eq_nil
    intro t m ht hm
    obtain ⟨c, hc, hdig⟩ := numericDate_digit hm
    have := hdigit c ((matched_occurs ht hm).subset hc)
    rw [hdig] at this
    cases this
  have h2 : allMatches text slashPattern = [] := hnum '/'
  have h3 : allMatches text dashPattern = [] := hnum '-'
  rw [extractEntities_dates_eq, h1, h2, h3]
  rfl

theorem people_eq_nil {text : String}
    (htrig : ¬ occursAnyCase text ["with", "by", "assign to"]) :
    (extractEntities text).people = [] := by
  have hx : execAll peoplePattern 0 text.data = [] := by
    apply execAll_eq_nil
    intro t ht
    cases hm : matchAt peoplePattern t with
    | none => rfl
    | some m =>
      exfalso
      have hmem := List.mem_of_mem_head? hm
      obtain ⟨trig, ws, name, hmat, -, ⟨k, hk, hmap⟩, -, -⟩ := people_sound hmem
      apply htrig
      refine ⟨k, hk, ?_⟩
      have h1 : trig <:+: m.matched := ⟨[], ws ++ name, by rw [hmat]; simp⟩
      have hin := infix_map_toUpper (h1.trans (matched_occurs ht hmem))
      rw [← hmap]
      exact hin
  simp only [extractEntities, hx, List.map_nil]

theorem actions_eq_nil {text : String}
    (hverb : ¬ occurs text ["schedule", "call", "meet", "send", "review", "fix", "install",
      "pay", "check"]) : (extractEntities text).actions = [] := by
  simp only [extractEntities]
  rw [foldl_push_filter (fun verb => includes text verb) actionVerbs [], List.nil_append,
    List.filter_eq_nil_iff]
  intro v hv hin
  exact hverb ⟨v, hv, (includes_iff text v).1 hin⟩

/-- C11: for every string all four fields are returned with locations
empty, and a string with no date keyword and no trigger in any letter case,
no digit and no action verb, the empty string included, gives four empty
sequences. -/
theorem extractEntities_nothing_found (text : String) :
    (extractEntities text).locations = [] ∧
    (¬ occursAnyCase text ["today", "tomorrow", "monday", "tuesday", "wednesday", "thursday",
        "friday", "saturday", "sunday"] →
      (∀ c ∈ text.data, c.isDigit = false) →
      ¬ occursAnyCase text ["with", "by", "assign to"] →
      ¬ occurs text ["schedule", "call", "meet", "send", "review", "fix", "install", "pay",
        "check"] →
      extractEntities text = { dates := [], people := [], locations := [], actions := [] }) ∧
    extractEntities "" = { dates := [], people := [], locations := [], actions := [] } := by
  refine ⟨rfl, ?_, by decide⟩
  intro hday hdigit htrig hverb
  have hd := dates_eq_nil hday hdigit
  have hp := people_eq_nil htrig
  have ha := actions_eq_nil hverb
  calc extractEntities text
      = ⟨(extractEntities text).dates, (extractEntities text).people,
          (extractEntities text).locations, (extractEntities text).actions⟩ := rfl
    _ = { dates := [], people := [], locations := [], actions := [] } := by
      rw [hd, hp, ha]
      rfl

theorem extractEntities_nothing_found_witness :
    ¬ occursAnyCase "generic task description" ["today", "tomorrow", "monday", "tuesday",
      "wednesday", "thursday", "friday", "saturday", "sunday"] ∧
    (∀ c ∈ "generic task description".data, c.isDigit = false) ∧
    ¬ occursAnyCase "generic task description" ["with", "by", "assign to"] ∧
    ¬ occurs "generic task description" ["schedule", "call", "meet", "send", "review", "fix",
      "install", "pay", "check"] ∧
    extractEntities "generic task description" =
      { dates := [], people := [], locations := [], actions := [] } :=
  ⟨by unfold occursAnyCase; decide, by decide, by unfold occursAnyCase; decide,
    by unfold occurs; decide,
    (extractEntities_nothing_found "generic task description").2.1
      (by unfold occursAnyCase; decide) (by decide) (by unfold occursAnyCase; decide)
      (by unfold occurs; decide)⟩

/-! ## Claim C12: the date `today` and the priority -/

theorem today_not_numericDate (sep : Char) (hsep : sep ∉ "today".data) :
    ¬ IsNumericDate sep "today" := by
  rintro ⟨a, b, c, hd, -⟩
  apply hsep
  rw [hd]
  simp

/-- A date `today` is extracted only from a text that contains `today`. -/
theorem today_occurs_of_date {text : String} (h : "today" ∈ (extractEntities text).dates) :
    "today".data <:+: text.data := by
  rw [extractEntities_dates_eq] at h
  simp only [List.mem_append] at h
  rcases h with (h | h) | h
  · obtain ⟨m, t, ht, hm, heq⟩ := allMatches_mem h
    have hin := matched_occurs ht hm
    have hdata : "today".data = m.matched := by rw [heq]
    rw [hdata]
    exact hin
  · obtain ⟨m, t, -, hm, heq⟩ := allMatches_mem h
    have hnum := numericDate_sound hm
    rw [← heq] at hnum
    exact absurd hnum (today_not_numericDate '/' (by decide))
  · obtain ⟨m, t, -, hm, heq⟩ := allMatches_mem h
    have hnum := numericDate_sound hm
    rw [← heq] at hnum
    exact absurd hnum (today_not_numericDate '-' (by decide))

/-- C12: when the extracted dates of a classification contain `today`, its
priority is high. -/
theorem classifyTask_today_high (title : String) (description : Description)
    (h : "today" ∈ (classifyTask title description).extracted_entities.dates) :
    (classifyTask title description).priority = "high" := by
  have hin := today_occurs_of_date h
  have hocc : occurs (toLowerCase (title ++ " " ++ description.orEmpty))
      ["urgent", "asap", "immediately", "today", "critical", "emergency"] :=
    ⟨"today", by simp, hin⟩
  have key : (classifyTask title description).priority =
      scanTable (toLowerCase (title ++ " " ++ description.orEmpty)) "low" PRIORITY_KEYWORDS := rfl
  rw [key, PRIORITY_KEYWORDS, scanTable_cons_pos _ _ _ hocc]

theorem classifyTask_today_high_witness :
    "today" ∈
      (classifyTask "Send the report TODAY" (.str "to the board")).extracted_entities.dates ∧
    (classifyTask "Send the report TODAY" (.str "to the board")).priority = "high" :=
  ⟨by decide, classifyTask_today_high "Send the report TODAY" (.str "to the board") (by decide)⟩

end TaskManager
